import Mathlib

/-!
# Verification of the deleted-user message analyzer

A shallow embedding of `src/main.rs` (the `deleted-user-analyzer` crate).
The Rust core is a pure pipeline over an in-memory list of messages:

1. filter messages whose mentioned-user name or nickname contains
   "deleted user" (case-insensitively),
2. group the survivors by `author_id`,
3. per group: sort by `content` and collapse consecutive equal contents,
4. per group: tokenize contents and build a word-frequency table plus a
   top-10 "most common words" ranking,
5. merge the per-author tables into a global word-frequency table and
   assemble the result record.

Modelling conventions:
* strings are Lean `String`s; `char` classification / lowercasing uses
  Lean's `Char.isAlphanum`, `Char.isWhitespace`, `Char.toLower`
  (the ASCII fragment of the corresponding Rust `char` methods, which
  is the fragment the analysed data and the examples exercise);
* `usize` counts are `Nat`;
* Rust's `Vec::sort_by` is a stable sort, and any two stable sorts with
  the same comparator agree, so it is modelled by `List.insertionSort`
  (stable for Mathlib's ordering of insertions);
* `Vec::dedup_by`, which drops an element exactly when it is related to
  the last kept element, is `List.destutter` with the negated relation;
* `BTreeMap<String, usize>` is an association list with strictly
  ascending keys; `HashMap` iteration order is arbitrary in Rust, and
  every use in the source either sorts afterwards (`BTreeMap` collect)
  or is order-insensitive, so the model fixes first-insertion order.
-/

namespace DiscordAnalyzer

/-- The `Message` record from `src/main.rs` (the deserialized input row). -/
structure Message where
  message_id : String
  content : String
  timestamp : String
  author_name : String
  author_nickname : String
  author_id : String
  mentioned_user_name : Option String
  mentioned_user_nickname : Option String
deriving DecidableEq, Inhabited

/-- The per-author analysis record from `src/main.rs`. -/
structure AuthorAnalysis where
  author_id : String
  author_name : String
  author_nickname : String
  total_messages_to_deleted_user : Nat
  unique_message_count : Nat
  word_frequency : List (String × Nat)
  most_common_words : List (String × Nat)
deriving DecidableEq, Inhabited

/-- The whole-run result record from `src/main.rs`. -/
structure AnalysisResult where
  total_messages : Nat
  messages_to_deleted_users : Nat
  unique_authors : Nat
  authors_analysis : List AuthorAnalysis
  global_word_frequency : List (String × Nat)
deriving DecidableEq, Inhabited

/-! ## Tokenizer (`tokenize_content`) -/

/-- Accumulator pass of `str::split_whitespace`: splits a character list
on runs of whitespace, dropping empty pieces. `cur` holds the current
word reversed. -/
def splitWsAux : List Char → List Char → List (List Char)
  | [], cur => if cur = [] then [] else [cur.reverse]
  | c :: cs, cur =>
    if c.isWhitespace then
      if cur = [] then splitWsAux cs [] else cur.reverse :: splitWsAux cs []
    else
      splitWsAux cs (c :: cur)

/-- `str::split_whitespace`: the maximal whitespace-free pieces. -/
def splitWs (cs : List Char) : List (List Char) := splitWsAux cs []

/-- The per-word cleaning step: keep only alphanumeric characters. -/
def cleanWord (w : List Char) : List Char := w.filter Char.isAlphanum

/-- `tokenize_content` from `src/main.rs`: lowercase the content, split
on whitespace, strip non-alphanumeric characters from each piece, and
keep a piece iff the cleaned form has length at least `min_len`. -/
def tokenize_content (content : String) (min_len : Nat) : List String :=
  (splitWs (content.toList.map Char.toLower)).filterMap fun w =>
    let clean_w := cleanWord w
    if min_len ≤ clean_w.length then some (String.mk clean_w) else none

/-! ## Relevance filter -/

/-- `name.to_lowercase().contains("deleted user")`: the executable
substring test on the lowercased field. -/
def containsDeletedUser (s : String) : Bool :=
  decide ("deleted user".toList <:+: s.toList.map Char.toLower)

/-- The filter closure from `main`: a message is relevant iff the
mentioned-user name or nickname contains "deleted user"
case-insensitively, an absent field counting as a non-match. -/
def isRelevant (msg : Message) : Bool :=
  (match msg.mentioned_user_name with
   | some name => containsDeletedUser name
   | none => false) ||
  (match msg.mentioned_user_nickname with
   | some nickname => containsDeletedUser nickname
   | none => false)

/-! ## Grouping by author -/

/-- One step of the grouping loop:
`author_msg_map.entry(msg.author_id).or_insert_with(Vec::new).push(msg)`.
The existing group gets `msg` appended; otherwise a fresh singleton
group is created. -/
def pushMsg (groups : List (String × List Message)) (m : Message) :
    List (String × List Message) :=
  if groups.any fun g => g.1 = m.author_id then
    groups.map fun g => if g.1 = m.author_id then (g.1, g.2 ++ [m]) else g
  else
    groups ++ [(m.author_id, [m])]

/-- The grouping loop `for msg in deleted_msgs { ... }` over the hash
map, with groups listed in first-insertion order (the source's
`HashMap` iteration order is arbitrary; nothing downstream depends on
it). -/
def groupByAuthor (msgs : List Message) : List (String × List Message) :=
  msgs.foldl pushMsg []

/-! ## Per-author deduplication (`sort_by` + `dedup_by` on content) -/

/-- The comparator of `msgs.sort_by(|a, b| a.content.cmp(&b.content))`.
Rust's `String` ordering is lexicographic on the characters, modelled
by the lexicographic order on `List Char`. -/
def contentLe (a b : Message) : Prop := a.content.toList ≤ b.content.toList

instance : DecidableRel contentLe :=
  fun a b => inferInstanceAs (Decidable (a.content.toList ≤ b.content.toList))

instance : IsTotal Message contentLe :=
  ⟨fun a b => le_total a.content.toList b.content.toList⟩

instance : IsTrans Message contentLe := ⟨fun _ _ _ h₁ h₂ => le_trans h₁ h₂⟩

/-- The negation of the `dedup_by` predicate: a message is kept iff its
content differs from the last kept message's content. -/
def contentNe (a b : Message) : Prop := a.content ≠ b.content

instance : DecidableRel contentNe :=
  fun a b => inferInstanceAs (Decidable (a.content ≠ b.content))

/-- Strict content order (used only in proofs about the sorted,
deduplicated lists). -/
def contentLt (a b : Message) : Prop := a.content.toList < b.content.toList

instance : IsTrans Message contentLt := ⟨fun _ _ _ h₁ h₂ => lt_trans h₁ h₂⟩

/-- `msgs.sort_by(on content); msgs.dedup_by(on content)` from `main`.
`sort_by` is a stable sort, hence extensionally `List.insertionSort`;
`dedup_by` keeps an element iff it differs from the last kept one,
which is `List.destutter`. -/
def dedupMessages (msgs : List Message) : List Message :=
  (msgs.insertionSort contentLe).destutter contentNe

/-! ## Word-frequency tables

`BTreeMap<String, usize>` / `HashMap<String, usize>` are modelled as
association lists; `alGet` is lookup with the `or_insert(0)` default,
`alBump` is `*map.entry(w).or_insert(0) += c`. -/

/-- Lookup in an association-list table, defaulting to `0`. -/
def alGet : List (String × Nat) → String → Nat
  | [], _ => 0
  | p :: m, w => if p.1 = w then p.2 else alGet m w

/-- Key membership in an association-list table. -/
def keyMem (m : List (String × Nat)) (w : String) : Prop :=
  w ∈ m.map Prod.fst

instance (m : List (String × Nat)) (w : String) : Decidable (keyMem m w) :=
  inferInstanceAs (Decidable (w ∈ m.map Prod.fst))

/-- `*map.entry(w).or_insert(0) += c`: increment the entry for `w`, or
append a fresh `(w, c)` entry. -/
def alBump : List (String × Nat) → String → Nat → List (String × Nat)
  | [], w, c => [(w, c)]
  | p :: m, w, c => if p.1 = w then (p.1, p.2 + c) :: m else p :: alBump m w c

/-- Key order of `BTreeMap<String, usize>` (lexicographic on the
key's characters). -/
def keyLe (a b : String × Nat) : Prop := a.1.toList ≤ b.1.toList

instance : DecidableRel keyLe :=
  fun a b => inferInstanceAs (Decidable (a.1.toList ≤ b.1.toList))

instance : IsTotal (String × Nat) keyLe := ⟨fun a b => le_total a.1.toList b.1.toList⟩

instance : IsTrans (String × Nat) keyLe := ⟨fun _ _ _ h₁ h₂ => le_trans h₁ h₂⟩

/-- Strict key order (used only in proofs about the key-sorted
tables). -/
def keyLt (a b : String × Nat) : Prop := a.1.toList < b.1.toList

instance : DecidableRel keyLt :=
  fun a b => inferInstanceAs (Decidable (a.1.toList < b.1.toList))

instance : IsTrans (String × Nat) keyLt := ⟨fun _ _ _ h₁ h₂ => lt_trans h₁ h₂⟩

/-- The total sum contributed to key `w` by the entries of a table
(used to describe the accumulation loops). -/
def entrySum (t : List (String × Nat)) (w : String) : Nat :=
  (t.map fun p => if p.1 = w then p.2 else 0).sum

/-- Collecting a map into a `BTreeMap`: entries sorted by key. -/
def sortByKey (m : List (String × Nat)) : List (String × Nat) :=
  m.insertionSort keyLe

/-- The comparator of `common_words.sort_by(|a, b| b.1.cmp(&a.1))`:
count descending. -/
def countGe (a b : String × Nat) : Prop := b.2 ≤ a.2

instance : DecidableRel countGe :=
  fun a b => inferInstanceAs (Decidable (b.2 ≤ a.2))

instance : IsTotal (String × Nat) countGe := ⟨fun a b => le_total b.2 a.2⟩

instance : IsTrans (String × Nat) countGe := ⟨fun _ _ _ h₁ h₂ => le_trans h₂ h₁⟩

/-- The word-frequency table of one author's (deduplicated) message
list: bump a count for every token of every message, then collect into
a key-sorted map (`HashMap` → `BTreeMap`). -/
def countWords (msgs : List Message) (min_len : Nat) : List (String × Nat) :=
  sortByKey
    (msgs.foldl
      (fun m msg => (tokenize_content msg.content min_len).foldl
        (fun m w => alBump m w 1) m)
      [])

/-- The ranking step: stable sort by count descending
(`sort_by(|a, b| b.1.cmp(&a.1))`), then `truncate(10)`. -/
def rank (t : List (String × Nat)) : List (String × Nat) :=
  (t.insertionSort countGe).take 10

/-- Building one `AuthorAnalysis` from a deduplicated group, as in the
parallel `map` of `main`: both counts are the length of the
deduplicated list, the representative for name/nickname is `msgs[0]`. -/
def mkAuthorAnalysis (min_len : Nat) (author_id : String)
    (msgs : List Message) : AuthorAnalysis :=
  let word_frequency := countWords msgs min_len
  { author_id := author_id
    author_name := (msgs.headD default).author_name
    author_nickname := (msgs.headD default).author_nickname
    total_messages_to_deleted_user := msgs.length
    unique_message_count := msgs.length
    word_frequency := word_frequency
    most_common_words := rank word_frequency }

/-- The global-frequency accumulation loop body: add every entry of one
author's table into the accumulator. -/
def mergeInto (g t : List (String × Nat)) : List (String × Nat) :=
  t.foldl (fun g p => alBump g p.1 p.2) g

/-- The global word-frequency accumulation over all author tables. -/
def globalFrequency (tables : List (List (String × Nat))) :
    List (String × Nat) :=
  tables.foldl mergeInto []

/-- The whole core pipeline of `main`, from the loaded messages and the
`min_word_length` setting to the `AnalysisResult`. -/
def analyze (msgs : List Message) (min_len : Nat) : AnalysisResult :=
  let deleted_msgs := msgs.filter isRelevant
  let groups := (groupByAuthor deleted_msgs).map fun g => (g.1, dedupMessages g.2)
  let analysis_data := groups.map fun g => mkAuthorAnalysis min_len g.1 g.2
  { total_messages :=
      (analysis_data.map fun a => a.total_messages_to_deleted_user).sum
    messages_to_deleted_users :=
      (analysis_data.map fun a => a.unique_message_count).sum
    unique_authors := analysis_data.length
    authors_analysis := analysis_data
    global_word_frequency :=
      sortByKey (globalFrequency (analysis_data.map fun a => a.word_frequency)) }

/-! ## Specification-side definition for the refinement claim -/

/-- Full-set deduplication by content with an explicit auxiliary
uniqueness set, following the specification's words: walk the list,
keep a message iff its content has not been seen before. -/
def dedupSpecAux (seen : List String) : List Message → List Message
  | [] => []
  | m :: rest =>
    if m.content ∈ seen then dedupSpecAux seen rest
    else m :: dedupSpecAux (m.content :: seen) rest

/-- Full-set deduplication by content (specification-side reference). -/
def dedupSpec (msgs : List Message) : List Message := dedupSpecAux [] msgs

/-! ## Concrete fixtures used by the witness theorems -/

/-- A relevant message with a repeated token, used to instantiate the
universally quantified theorems at a concrete run. -/
def wMsg : Message :=
  { message_id := "1"
    content := "hello hello world"
    timestamp := "t"
    author_name := "Alice"
    author_nickname := "ali"
    author_id := "A1"
    mentioned_user_name := some "Deleted User#0001"
    mentioned_user_nickname := none }

/-- A relevant message whose content has no alphanumeric characters. -/
def wMsgBang : Message := { wMsg with content := "!!! ???" }

/-! ## Character-level lemmas -/

theorem char_toNat_ofNat {m : Nat} (h1 : 97 ≤ m) (h2 : m ≤ 122) :
    (Char.ofNat m).toNat = m := by
  interval_cases m <;> rfl

theorem toLower_eq_self {c : Char} (h : ¬(c.toNat ≥ 65 ∧ c.toNat ≤ 90)) :
    Char.toLower c = c := by
  simp only [Char.toLower]
  rw [if_neg h]

theorem toLower_eq_ofNat {c : Char} (h : c.toNat ≥ 65 ∧ c.toNat ≤ 90) :
    Char.toLower c = Char.ofNat (c.toNat + 32) := by
  simp only [Char.toLower]
  rw [if_pos h]

/-- Lowercasing is idempotent on characters. -/
theorem toLower_idem (c : Char) : (Char.toLower c).toLower = Char.toLower c := by
  by_cases h : c.toNat ≥ 65 ∧ c.toNat ≤ 90
  · have h2 : (Char.toLower c).toNat = c.toNat + 32 := by
      rw [toLower_eq_ofNat h, char_toNat_ofNat (by omega) (by omega)]
    exact toLower_eq_self (by omega)
  · rw [toLower_eq_self h]
    exact toLower_eq_self h

/-! ## Tokenizer lemmas -/

/-- `tokenize_content` decomposed the way the specification phrases it:
map the cleaning step over the whitespace-split pieces of the
lowercased content, then keep exactly the tokens of length at least
`min_len`. -/
theorem String_length_mk (l : List Char) : (String.mk l).length = l.length := rfl

theorem tokenize_eq_filter_map (content : String) (min_len : Nat) :
    tokenize_content content min_len
      = (((splitWs (content.toList.map Char.toLower)).map
            fun w => String.mk (cleanWord w)).filter
          fun t => decide (min_len ≤ t.length)) := by
  unfold tokenize_content
  generalize splitWs (content.toList.map Char.toLower) = ps
  induction ps with
  | nil => rfl
  | cons w ps ih =>
    by_cases h : min_len ≤ (cleanWord w).length <;>
      simp [List.filterMap_cons, List.map_cons, List.filter_cons,
        String_length_mk, h, ih]

/-- Every character of every piece of `splitWsAux cs cur` comes from
`cs` or `cur`, so a property of all input characters holds on all
output characters. -/
theorem splitWsAux_chars {P : Char → Prop} (cs : List Char) :
    ∀ cur : List Char, (∀ c ∈ cs, P c) → (∀ c ∈ cur, P c) →
      ∀ w ∈ splitWsAux cs cur, ∀ ch ∈ w, P ch := by
  induction cs with
  | nil =>
    intro cur _ hcur w hw ch hch
    simp only [splitWsAux] at hw
    split at hw
    · simp at hw
    · rw [List.mem_singleton] at hw
      subst hw
      exact hcur ch (List.mem_reverse.mp hch)
  | cons c cs ih =>
    intro cur hcs hcur w hw ch hch
    simp only [splitWsAux] at hw
    have hcs' : ∀ x ∈ cs, P x := fun x hx => hcs x (List.mem_cons_of_mem c hx)
    split at hw
    · split at hw
      · exact ih [] hcs' (by simp) w hw ch hch
      · rcases List.mem_cons.mp hw with hw | hw
        · subst hw
          exact hcur ch (List.mem_reverse.mp hch)
        · exact ih [] hcs' (by simp) w hw ch hch
    · exact ih (c :: cur) hcs'
        (by
          intro x hx
          rcases List.mem_cons.mp hx with hx | hx
          · subst hx; exact hcs x (List.mem_cons_self x cs)
          · exact hcur x hx)
        w hw ch hch

/-- Membership description of the tokenizer output: every token is the
cleaned form of some whitespace-split piece of the lowercased content,
and passed the length test. -/
theorem mem_tokenize (content : String) (min_len : Nat) (tok : String)
    (h : tok ∈ tokenize_content content min_len) :
    ∃ w ∈ splitWs (content.toList.map Char.toLower),
      tok = String.mk (cleanWord w) ∧ min_len ≤ (cleanWord w).length := by
  unfold tokenize_content at h
  rcases List.mem_filterMap.mp h with ⟨w, hw, hsome⟩
  by_cases hl : min_len ≤ (cleanWord w).length
  · refine ⟨w, hw, ?_, hl⟩
    simp only [if_pos hl] at hsome
    exact (Option.some.inj hsome).symm
  · simp only [if_neg hl] at hsome
    cases hsome

theorem String_toList_mk (l : List Char) : (String.mk l).toList = l := rfl

/-- Claim C1: the tokenizer lowercases the content, splits on
whitespace runs, strips non-alphanumeric characters from each piece,
and keeps a cleaned token iff its length is at least the threshold;
every produced token is lowercase and alphanumeric-only, in source
order with repetitions kept (the filter-of-map decomposition); and the
two concrete examples from the specification hold. -/
theorem claim_C1 :
    (∀ (content : String) (min_len : Nat),
        tokenize_content content min_len
          = (((splitWs (content.toList.map Char.toLower)).map
                fun w => String.mk (cleanWord w)).filter
              fun t => decide (min_len ≤ t.length))
        ∧ ∀ tok ∈ tokenize_content content min_len,
            min_len ≤ tok.length
              ∧ (∀ ch ∈ tok.toList, ch.isAlphanum = true)
              ∧ tok.toList.map Char.toLower = tok.toList)
    ∧ tokenize_content "Hello, World! This is a test." 3
        = ["hello", "world", "this", "test"]
    ∧ tokenize_content "a bb ccc dddd" 2 = ["bb", "ccc", "dddd"] := by
  refine ⟨fun content min_len => ⟨tokenize_eq_filter_map content min_len, ?_⟩,
    by decide, by decide⟩
  intro tok htok
  rcases mem_tokenize content min_len tok htok with ⟨w, hw, htokeq, hlen⟩
  subst htokeq
  refine ⟨by rw [String_length_mk]; exact hlen, ?_, ?_⟩
  · intro ch hch
    rw [String_toList_mk] at hch
    exact (List.mem_filter.mp hch).2
  · rw [String_toList_mk]
    have hlow : ∀ ch ∈ cleanWord w, Char.toLower ch = ch := by
      intro ch hch
      have hchw : ch ∈ w := (List.mem_filter.mp hch).1
      refine splitWsAux_chars (P := fun c => Char.toLower c = c)
        (content.toList.map Char.toLower) [] ?_ (by simp) w hw ch hchw
      intro c hc
      rcases List.mem_map.mp hc with ⟨d, _, hd⟩
      rw [← hd]
      exact toLower_idem d
    calc (cleanWord w).map Char.toLower = (cleanWord w).map id :=
          List.map_congr_left hlow
      _ = cleanWord w := List.map_id (cleanWord w)

/-- Witness for claim C1 at a concrete token of the first example. -/
theorem claim_C1_witness :
    ("hello" ∈ tokenize_content "Hello, World! This is a test." 3)
    ∧ (3 ≤ "hello".length ∧ (∀ ch ∈ "hello".toList, ch.isAlphanum = true)
        ∧ "hello".toList.map Char.toLower = "hello".toList) :=
  ⟨by decide, (claim_C1.1 "Hello, World! This is a test." 3).2 "hello" (by decide)⟩

/-- Claim C3: a message is relevant iff "deleted user" is a substring
of the lowercased mentioned-user name or of the lowercased
mentioned-user nickname; an absent field never matches, a message with
both fields absent never matches, and filtering preserves the relative
order of the retained records (the filtered list is a sublist). -/
theorem claim_C3 :
    (∀ msg : Message,
        (isRelevant msg = true ↔
          (∃ s, msg.mentioned_user_name = some s ∧
              "deleted user".toList <:+: s.toList.map Char.toLower)
          ∨ (∃ s, msg.mentioned_user_nickname = some s ∧
              "deleted user".toList <:+: s.toList.map Char.toLower))
        ∧ (msg.mentioned_user_name = none → msg.mentioned_user_nickname = none →
            isRelevant msg = false))
    ∧ ∀ msgs : List Message, List.Sublist (msgs.filter isRelevant) msgs := by
  refine ⟨fun msg => ⟨?_, ?_⟩, fun msgs => List.filter_sublist msgs⟩
  · rcases msg with ⟨mid, co, ts, an, ank, aid, name?, nick?⟩
    cases name? <;> cases nick? <;>
      simp [isRelevant, containsDeletedUser]
  · intro h1 h2
    rcases msg with ⟨mid, co, ts, an, ank, aid, name?, nick?⟩
    simp only at h1 h2
    subst h1
    subst h2
    rfl

/-- Witness for claim C3: the default message has both optional fields
absent and is rejected by the filter. -/
theorem claim_C3_witness :
    isRelevant (default : Message) = false :=
  (claim_C3.1 default).2 rfl rfl

/-! ## Deduplication lemmas -/

theorem String_toList_inj {a b : String} (h : a.toList = b.toList) : a = b := by
  cases a
  cases b
  simp only [String.toList] at h
  exact congrArg String.mk h

/-- Two adjacent-pair properties combine pointwise along a list. -/
theorem chain'_comb {α : Type} {R S T : α → α → Prop}
    (h : ∀ a b, R a b → S a b → T a b) :
    ∀ l : List α, l.Chain' R → l.Chain' S → l.Chain' T
  | [], _, _ => List.chain'_nil
  | [a], _, _ => List.chain'_singleton a
  | a :: b :: t, hR, hS => by
    rw [List.chain'_cons] at hR hS ⊢
    exact ⟨h a b hR.1 hS.1, chain'_comb h (b :: t) hR.2 hS.2⟩

theorem dedupMessages_sublist (l : List Message) :
    List.Sublist (dedupMessages l) (l.insertionSort contentLe) :=
  List.destutter_sublist contentNe (l.insertionSort contentLe)

theorem dedupMessages_pairwise_le (l : List Message) :
    (dedupMessages l).Pairwise contentLe :=
  List.Pairwise.sublist (dedupMessages_sublist l)
    (List.sorted_insertionSort contentLe l)

theorem dedupMessages_chain_ne (l : List Message) :
    (dedupMessages l).Chain' contentNe :=
  List.destutter_is_chain' contentNe (l.insertionSort contentLe)

theorem dedupMessages_pairwise_lt (l : List Message) :
    (dedupMessages l).Pairwise contentLt := by
  refine List.chain'_iff_pairwise.mp
    (chain'_comb (R := contentLe) (S := contentNe) ?_ (dedupMessages l)
      ((dedupMessages_pairwise_le l).chain') (dedupMessages_chain_ne l))
  intro a b hle hne
  exact lt_of_le_of_ne hle fun htl => hne (String_toList_inj htl)

theorem dedupMessages_content_nodup (l : List Message) :
    ((dedupMessages l).map Message.content).Nodup := by
  refine (dedupMessages_pairwise_lt l).map Message.content ?_
  intro a b hlt heq
  exact absurd (congrArg String.toList heq) (ne_of_lt hlt)

theorem dedupMessages_mem (l : List Message) {m : Message}
    (h : m ∈ dedupMessages l) : m ∈ l :=
  (l.perm_insertionSort contentLe).mem_iff.mp ((dedupMessages_sublist l).mem h)

/-- Every content value of the original list survives a
sort-then-collapse pass: the collapse only drops an element when an
equal-content neighbour is kept. -/
theorem mem_destutter'_content :
    ∀ (l : List Message) (a m : Message), m ∈ a :: l →
      ∃ m' ∈ List.destutter' contentNe a l, m'.content = m.content
  | [], a, m, hm => by
    rw [List.mem_singleton] at hm
    exact ⟨a, by simp [List.destutter'_nil], by rw [hm]⟩
  | b :: t, a, m, hm => by
    rw [List.destutter'_cons]
    by_cases h : contentNe a b
    · rw [if_pos h]
      rcases List.mem_cons.mp hm with hma | hmbt
      · exact ⟨a, List.mem_cons_self a _, by rw [hma]⟩
      · rcases mem_destutter'_content t b m hmbt with ⟨m', hm', he⟩
        exact ⟨m', List.mem_cons_of_mem a hm', he⟩
    · rw [if_neg h]
      have hab : a.content = b.content := not_not.mp h
      rcases List.mem_cons.mp hm with hma | hmbt
      · rcases mem_destutter'_content t a a (List.mem_cons_self a t) with ⟨m', hm', he⟩
        exact ⟨m', hm', by rw [he, hma]⟩
      · rcases List.mem_cons.mp hmbt with hmb | hmt
        · rcases mem_destutter'_content t a a (List.mem_cons_self a t) with ⟨m', hm', he⟩
          exact ⟨m', hm', by rw [he, hab, hmb]⟩
        · exact mem_destutter'_content t a m (List.mem_cons_of_mem a hmt)

theorem dedupMessages_content_surj (l : List Message) {m : Message}
    (h : m ∈ l) : ∃ m' ∈ dedupMessages l, m'.content = m.content := by
  have h' : m ∈ l.insertionSort contentLe :=
    (l.perm_insertionSort contentLe).mem_iff.mpr h
  unfold dedupMessages
  rcases hs : l.insertionSort contentLe with _ | ⟨a, t⟩
  · rw [hs] at h'
    cases h'
  · rw [hs] at h'
    rw [List.destutter_cons']
    exact mem_destutter'_content t a m h'

/-! ## Specification-side dedup lemmas -/

theorem dedupSpecAux_nodup (l : List Message) :
    ∀ seen : List String,
      ((dedupSpecAux seen l).map Message.content).Nodup
      ∧ ∀ v ∈ (dedupSpecAux seen l).map Message.content, v ∉ seen := by
  induction l with
  | nil => intro seen; simp [dedupSpecAux]
  | cons m rest ih =>
    intro seen
    by_cases h : m.content ∈ seen
    · simpa [dedupSpecAux, h] using ih seen
    · rcases ih (m.content :: seen) with ⟨ihn, ihs⟩
      constructor
      · simp only [dedupSpecAux, if_neg h, List.map_cons, List.nodup_cons]
        exact ⟨fun hc => (ihs _ hc) (List.mem_cons_self _ _), ihn⟩
      · intro v hv
        simp only [dedupSpecAux, if_neg h, List.map_cons, List.mem_cons] at hv
        rcases hv with hv | hv
        · rw [hv]; exact h
        · exact fun hs => (ihs v hv) (List.mem_cons_of_mem _ hs)

theorem dedupSpecAux_mem (l : List Message) :
    ∀ (seen : List String) (v : String),
      v ∈ (dedupSpecAux seen l).map Message.content
        ↔ v ∈ l.map Message.content ∧ v ∉ seen := by
  induction l with
  | nil => intro seen v; simp [dedupSpecAux]
  | cons m rest ih =>
    intro seen v
    by_cases h : m.content ∈ seen
    · rw [show dedupSpecAux seen (m :: rest) = dedupSpecAux seen rest from if_pos h,
        ih seen v]
      simp only [List.map_cons, List.mem_cons]
      constructor
      · exact fun ⟨hv, hs⟩ => ⟨Or.inr hv, hs⟩
      · rintro ⟨hv | hv, hs⟩
        · exact absurd (hv ▸ h) hs
        · exact ⟨hv, hs⟩
    · rw [show dedupSpecAux seen (m :: rest)
          = m :: dedupSpecAux (m.content :: seen) rest from if_neg h]
      simp only [List.map_cons, List.mem_cons, ih (m.content :: seen) v,
        List.mem_cons]
      constructor
      · rintro (hv | ⟨hv, hne⟩)
        · exact ⟨Or.inl hv, hv ▸ h⟩
        · exact ⟨Or.inr hv, fun hs => hne (Or.inr hs)⟩
      · rintro ⟨hv | hv, hs⟩
        · exact Or.inl hv
        · by_cases hvm : v = m.content
          · exact Or.inl hvm
          · exact Or.inr ⟨hv, fun hc => hc.elim hvm hs⟩

/-- Claim C4: sort-then-collapse deduplication produces the same set of
content values as full-set deduplication by content with an auxiliary
uniqueness set: the two content lists are permutations of each other,
exactly one message survives per distinct content value, and the
surviving content values are exactly the input's content values. -/
theorem claim_C4 : ∀ msgs : List Message,
    List.Perm ((dedupMessages msgs).map Message.content)
      ((dedupSpec msgs).map Message.content)
    ∧ ((dedupMessages msgs).map Message.content).Nodup
    ∧ ∀ v, v ∈ (dedupMessages msgs).map Message.content
        ↔ v ∈ msgs.map Message.content := by
  intro msgs
  have hmem : ∀ v, v ∈ (dedupMessages msgs).map Message.content
      ↔ v ∈ msgs.map Message.content := by
    intro v
    constructor
    · intro hv
      rcases List.mem_map.mp hv with ⟨m, hm, he⟩
      exact he ▸ List.mem_map_of_mem Message.content (dedupMessages_mem msgs hm)
    · intro hv
      rcases List.mem_map.mp hv with ⟨m, hm, he⟩
      rcases dedupMessages_content_surj msgs hm with ⟨m', hm', he'⟩
      exact List.mem_map.mpr ⟨m', hm', he'.trans he⟩
  refine ⟨?_, dedupMessages_content_nodup msgs, hmem⟩
  show List.Perm ((dedupMessages msgs).map Message.content)
    ((dedupSpecAux [] msgs).map Message.content)
  rw [List.perm_ext_iff_of_nodup (dedupMessages_content_nodup msgs)
    (dedupSpecAux_nodup msgs []).1]
  intro v
  rw [hmem v, dedupSpecAux_mem msgs [] v]
  simp [dedupSpec]

/-- Claim C5: after deduplication all surviving messages have pairwise
distinct content, and the sort-then-collapse step is idempotent. -/
theorem claim_C5 : ∀ msgs : List Message,
    ((dedupMessages msgs).map Message.content).Nodup
    ∧ dedupMessages (dedupMessages msgs) = dedupMessages msgs := by
  intro msgs
  refine ⟨dedupMessages_content_nodup msgs, ?_⟩
  show ((dedupMessages msgs).insertionSort contentLe).destutter contentNe
    = dedupMessages msgs
  rw [List.Sorted.insertionSort_eq (dedupMessages_pairwise_le msgs)]
  exact List.destutter_idem (msgs.insertionSort contentLe) contentNe

/-! ## Association-table lemmas -/

theorem alGet_alBump (m : List (String × Nat)) (w x : String) (c : Nat) :
    alGet (alBump m w c) x = alGet m x + if w = x then c else 0 := by
  induction m with
  | nil =>
    simp only [alBump, alGet]
    by_cases h : w = x <;> simp [h]
  | cons p m ih =>
    by_cases hpw : p.1 = w
    · rw [show alBump (p :: m) w c = (p.1, p.2 + c) :: m from if_pos hpw]
      by_cases hpx : p.1 = x
      · have hwx : w = x := hpw ▸ hpx
        simp [alGet, hpx, hwx]
      · have hwx : ¬ w = x := fun h => hpx (hpw.symm ▸ h : p.1 = x)
        simp [alGet, hpx, hwx]
    · rw [show alBump (p :: m) w c = p :: alBump m w c from if_neg hpw]
      by_cases hpx : p.1 = x
      · have hwx : ¬ w = x := fun h => hpw (h ▸ hpx)
        simp [alGet, hpx, hwx]
      · simp [alGet, hpx, ih]

theorem keyMem_alBump (m : List (String × Nat)) (w x : String) (c : Nat) :
    keyMem (alBump m w c) x ↔ x = w ∨ keyMem m x := by
  induction m with
  | nil => simp [alBump, keyMem]
  | cons p m ih =>
    by_cases hpw : p.1 = w
    · rw [show alBump (p :: m) w c = (p.1, p.2 + c) :: m from if_pos hpw]
      simp only [keyMem, List.map_cons, List.mem_cons] at *
      constructor
      · rintro (h | h)
        · exact Or.inl (h.trans hpw)
        · exact Or.inr (Or.inr h)
      · rintro (h | h | h)
        · exact Or.inl (h.trans hpw.symm)
        · exact Or.inl h
        · exact Or.inr h
    · rw [show alBump (p :: m) w c = p :: alBump m w c from if_neg hpw]
      simp only [keyMem, List.map_cons, List.mem_cons] at *
      rw [ih]
      tauto

theorem alBump_keys (m : List (String × Nat)) (w : String) (c : Nat) :
    (alBump m w c).map Prod.fst
      = if keyMem m w then m.map Prod.fst else m.map Prod.fst ++ [w] := by
  induction m with
  | nil => simp [alBump, keyMem]
  | cons p m ih =>
    by_cases hpw : p.1 = w
    · rw [show alBump (p :: m) w c = (p.1, p.2 + c) :: m from if_pos hpw,
        if_pos (by simp [keyMem, hpw.symm])]
      simp
    · rw [show alBump (p :: m) w c = p :: alBump m w c from if_neg hpw]
      have hmem : keyMem (p :: m) w ↔ keyMem m w := by
        simp only [keyMem, List.map_cons, List.mem_cons]
        constructor
        · rintro (h | h)
          · exact absurd h.symm hpw
          · exact h
        · exact Or.inr
      by_cases hk : keyMem m w
      · rw [if_pos (hmem.mpr hk)]
        simp [ih, if_pos hk]
      · rw [if_neg (fun h => hk (hmem.mp h))]
        simp [ih, if_neg hk]

theorem alBump_keys_nodup {m : List (String × Nat)} (w : String) (c : Nat)
    (h : (m.map Prod.fst).Nodup) : ((alBump m w c).map Prod.fst).Nodup := by
  rw [alBump_keys]
  by_cases hk : keyMem m w
  · rwa [if_pos hk]
  · rw [if_neg hk]
    simp only [List.nodup_append, List.nodup_cons, List.not_mem_nil,
      not_false_iff, List.nodup_nil, and_true, true_and]
    refine ⟨h, ?_⟩
    intro a ha
    simp only [List.mem_singleton]
    intro hb
    exact hk (hb ▸ ha)

theorem alGet_eq_zero_of_not_keyMem {m : List (String × Nat)} {x : String}
    (h : ¬ keyMem m x) : alGet m x = 0 := by
  induction m with
  | nil => rfl
  | cons p m ih =>
    have h1 : ¬ p.1 = x := by
      intro hpx
      exact h (by simp only [keyMem, List.map_cons, List.mem_cons]; exact Or.inl hpx.symm)
    have h2 : ¬ keyMem m x := by
      intro hk
      exact h (by simp only [keyMem, List.map_cons, List.mem_cons]; exact Or.inr hk)
    simp only [alGet, if_neg h1]
    exact ih h2

theorem mem_of_keyMem {m : List (String × Nat)} {x : String}
    (h : keyMem m x) : (x, alGet m x) ∈ m := by
  induction m with
  | nil => simp [keyMem] at h
  | cons p m ih =>
    obtain ⟨pk, pv⟩ := p
    by_cases hp : pk = x
    · simp only [alGet, if_pos hp]
      rw [← hp]
      exact List.mem_cons_self _ _
    · simp only [keyMem, List.map_cons, List.mem_cons] at h
      rcases h with h | h
      · exact absurd h.symm hp
      · simp only [alGet, if_neg hp]
        exact List.mem_cons_of_mem _ (ih h)

theorem alGet_of_mem {m : List (String × Nat)} {x : String} {c : Nat}
    (h : (x, c) ∈ m) (hn : (m.map Prod.fst).Nodup) : alGet m x = c := by
  induction m with
  | nil => cases h
  | cons p m ih =>
    simp only [List.map_cons, List.nodup_cons] at hn
    rcases List.mem_cons.mp h with h | h
    · rw [← h]
      simp [alGet]
    · have hpx : p.1 ≠ x := by
        intro hpx
        exact hn.1 (hpx ▸ List.mem_map_of_mem Prod.fst h)
      simp only [alGet, if_neg hpx]
      exact ih h hn.2

theorem keyMem_of_alGet_ne {m : List (String × Nat)} {x : String}
    (h : alGet m x ≠ 0) : keyMem m x := by
  by_contra hk
  exact h (alGet_eq_zero_of_not_keyMem hk)

theorem sortByKey_perm (m : List (String × Nat)) :
    List.Perm (sortByKey m) m :=
  m.perm_insertionSort keyLe

theorem keyMem_sortByKey (m : List (String × Nat)) (x : String) :
    keyMem (sortByKey m) x ↔ keyMem m x := by
  unfold keyMem
  exact ((sortByKey_perm m).map Prod.fst).mem_iff

theorem alGet_sortByKey (m : List (String × Nat)) (x : String)
    (hn : (m.map Prod.fst).Nodup) : alGet (sortByKey m) x = alGet m x := by
  by_cases hk : keyMem m x
  · have hmem : (x, alGet m x) ∈ sortByKey m :=
      (sortByKey_perm m).mem_iff.mpr (mem_of_keyMem hk)
    have hn' : ((sortByKey m).map Prod.fst).Nodup :=
      (((sortByKey_perm m).map Prod.fst).nodup_iff).mpr hn
    exact alGet_of_mem hmem hn'
  · rw [alGet_eq_zero_of_not_keyMem hk,
      alGet_eq_zero_of_not_keyMem (fun h => hk ((keyMem_sortByKey m x).mp h))]

/-! ## Merge and global-frequency lemmas -/

theorem alGet_mergeInto (t : List (String × Nat)) :
    ∀ (g : List (String × Nat)) (x : String),
      alGet (mergeInto g t) x = alGet g x + entrySum t x := by
  induction t with
  | nil => intro g x; simp [mergeInto, entrySum]
  | cons p t ih =>
    intro g x
    have hstep : mergeInto g (p :: t) = mergeInto (alBump g p.1 p.2) t := rfl
    rw [hstep, ih (alBump g p.1 p.2) x, alGet_alBump]
    simp only [entrySum, List.map_cons, List.sum_cons]
    omega

theorem keyMem_mergeInto (t : List (String × Nat)) :
    ∀ (g : List (String × Nat)) (x : String),
      keyMem (mergeInto g t) x ↔ keyMem g x ∨ keyMem t x := by
  induction t with
  | nil => intro g x; simp [mergeInto, keyMem]
  | cons p t ih =>
    intro g x
    have hstep : mergeInto g (p :: t) = mergeInto (alBump g p.1 p.2) t := rfl
    rw [hstep, ih (alBump g p.1 p.2) x, keyMem_alBump]
    simp only [keyMem, List.map_cons, List.mem_cons]
    tauto

theorem mergeInto_keys_nodup (t : List (String × Nat)) :
    ∀ g : List (String × Nat), (g.map Prod.fst).Nodup →
      ((mergeInto g t).map Prod.fst).Nodup := by
  induction t with
  | nil => intro g hg; exact hg
  | cons p t ih =>
    intro g hg
    exact ih (alBump g p.1 p.2) (alBump_keys_nodup p.1 p.2 hg)

theorem entrySum_eq_zero_of_not_keyMem {t : List (String × Nat)} {x : String}
    (h : ¬ keyMem t x) : entrySum t x = 0 := by
  induction t with
  | nil => rfl
  | cons p t ih =>
    have h1 : ¬ p.1 = x := by
      intro hpx
      exact h (by simp only [keyMem, List.map_cons, List.mem_cons]; exact Or.inl hpx.symm)
    have h2 : ¬ keyMem t x := by
      intro hk
      exact h (by simp only [keyMem, List.map_cons, List.mem_cons]; exact Or.inr hk)
    simp only [entrySum, List.map_cons, List.sum_cons, if_neg h1] at *
    simpa using ih h2

theorem entrySum_eq_alGet {t : List (String × Nat)} (x : String)
    (hn : (t.map Prod.fst).Nodup) : entrySum t x = alGet t x := by
  induction t with
  | nil => rfl
  | cons p t ih =>
    simp only [List.map_cons, List.nodup_cons] at hn
    by_cases hp : p.1 = x
    · have hnx : ¬ keyMem t x := by
        intro hk
        exact hn.1 (hp ▸ hk)
      simp only [entrySum, List.map_cons, List.sum_cons, if_pos hp, alGet]
      rw [show (t.map fun q => if q.1 = x then q.2 else 0).sum = entrySum t x from rfl,
        entrySum_eq_zero_of_not_keyMem hnx]
      omega
    · simp only [entrySum, List.map_cons, List.sum_cons, if_neg hp, alGet]
      simpa using ih hn.2

theorem alGet_foldl_mergeInto (ts : List (List (String × Nat))) :
    ∀ (g : List (String × Nat)) (x : String),
      alGet (ts.foldl mergeInto g) x
        = alGet g x + (ts.map fun t => entrySum t x).sum := by
  induction ts with
  | nil => intro g x; simp
  | cons t ts ih =>
    intro g x
    rw [List.foldl_cons, ih (mergeInto g t) x, alGet_mergeInto]
    simp only [List.map_cons, List.sum_cons]
    omega

theorem keyMem_foldl_mergeInto (ts : List (List (String × Nat))) :
    ∀ (g : List (String × Nat)) (x : String),
      keyMem (ts.foldl mergeInto g) x ↔ keyMem g x ∨ ∃ t ∈ ts, keyMem t x := by
  induction ts with
  | nil => intro g x; simp
  | cons t ts ih =>
    intro g x
    rw [List.foldl_cons, ih (mergeInto g t) x, keyMem_mergeInto]
    simp only [List.mem_cons]
    constructor
    · rintro ((h | h) | ⟨u, hu, h⟩)
      · exact Or.inl h
      · exact Or.inr ⟨t, Or.inl rfl, h⟩
      · exact Or.inr ⟨u, Or.inr hu, h⟩
    · rintro (h | ⟨u, hu | hu, h⟩)
      · exact Or.inl (Or.inl h)
      · exact Or.inl (Or.inr (hu ▸ h))
      · exact Or.inr ⟨u, hu, h⟩

theorem alGet_globalFrequency (ts : List (List (String × Nat))) (x : String)
    (hn : ∀ t ∈ ts, (t.map Prod.fst).Nodup) :
    alGet (globalFrequency ts) x = (ts.map fun t => alGet t x).sum := by
  unfold globalFrequency
  rw [alGet_foldl_mergeInto ts [] x]
  have : alGet [] x = 0 := rfl
  rw [this, Nat.zero_add]
  congr 1
  exact List.map_congr_left fun t ht => entrySum_eq_alGet x (hn t ht)

theorem keyMem_globalFrequency (ts : List (List (String × Nat))) (x : String) :
    keyMem (globalFrequency ts) x ↔ ∃ t ∈ ts, keyMem t x := by
  unfold globalFrequency
  rw [keyMem_foldl_mergeInto ts [] x]
  simp [keyMem]

theorem foldl_mergeInto_keys_nodup (ts : List (List (String × Nat))) :
    ∀ g : List (String × Nat), (g.map Prod.fst).Nodup →
      ((ts.foldl mergeInto g).map Prod.fst).Nodup := by
  induction ts with
  | nil => intro g hg; exact hg
  | cons t ts ih =>
    intro g hg
    rw [List.foldl_cons]
    exact ih (mergeInto g t) (mergeInto_keys_nodup t g hg)

theorem globalFrequency_keys_nodup (ts : List (List (String × Nat))) :
    ((globalFrequency ts).map Prod.fst).Nodup :=
  foldl_mergeInto_keys_nodup ts [] (by simp)

/-! ## Word-frequency table invariants of the pipeline -/

theorem bumpFold_keys_nodup (ws : List String) :
    ∀ m : List (String × Nat), (m.map Prod.fst).Nodup →
      ((ws.foldl (fun m w => alBump m w 1) m).map Prod.fst).Nodup := by
  induction ws with
  | nil => intro m hm; exact hm
  | cons w ws ih =>
    intro m hm
    rw [List.foldl_cons]
    exact ih (alBump m w 1) (alBump_keys_nodup w 1 hm)

theorem msgFold_keys_nodup (msgs : List Message) (min_len : Nat) :
    ∀ m : List (String × Nat), (m.map Prod.fst).Nodup →
      ((msgs.foldl
          (fun m msg => (tokenize_content msg.content min_len).foldl
            (fun m w => alBump m w 1) m)
          m).map Prod.fst).Nodup := by
  induction msgs with
  | nil => intro m hm; exact hm
  | cons msg msgs ih =>
    intro m hm
    rw [List.foldl_cons]
    exact ih _ (bumpFold_keys_nodup (tokenize_content msg.content min_len) m hm)

theorem countWords_keys_nodup (msgs : List Message) (min_len : Nat) :
    ((countWords msgs min_len).map Prod.fst).Nodup := by
  unfold countWords
  refine (((sortByKey_perm _).map Prod.fst).nodup_iff).mpr ?_
  exact msgFold_keys_nodup msgs min_len [] (by simp)

theorem countWords_pairwise_keyLt (msgs : List Message) (min_len : Nat) :
    (countWords msgs min_len).Pairwise keyLt := by
  have hle : (countWords msgs min_len).Pairwise keyLe :=
    List.sorted_insertionSort keyLe _
  have hne : (countWords msgs min_len).Pairwise fun a b => a.1 ≠ b.1 :=
    List.pairwise_map.mp (countWords_keys_nodup msgs min_len)
  refine hle.imp₂ (fun a b h1 h2 => ?_) hne
  exact lt_of_le_of_ne h1 fun htl => h2 (String_toList_inj htl)

theorem analyze_authors (msgs : List Message) (min_len : Nat) :
    (analyze msgs min_len).authors_analysis
      = ((groupByAuthor (msgs.filter isRelevant)).map
          fun g => (g.1, dedupMessages g.2)).map
        fun g => mkAuthorAnalysis min_len g.1 g.2 := rfl

theorem analyze_global (msgs : List Message) (min_len : Nat) :
    (analyze msgs min_len).global_word_frequency
      = sortByKey (globalFrequency
          (((analyze msgs min_len).authors_analysis).map
            fun a => a.word_frequency)) := rfl

theorem mkAuthorAnalysis_word_frequency (min_len : Nat) (author_id : String)
    (msgs : List Message) :
    (mkAuthorAnalysis min_len author_id msgs).word_frequency
      = countWords msgs min_len := rfl

theorem analyze_word_frequency_keys_nodup (msgs : List Message) (min_len : Nat) :
    ∀ a ∈ (analyze msgs min_len).authors_analysis,
      (a.word_frequency.map Prod.fst).Nodup := by
  intro a ha
  rw [analyze_authors] at ha
  rcases List.mem_map.mp ha with ⟨g, _, hg⟩
  rw [← hg, mkAuthorAnalysis_word_frequency]
  exact countWords_keys_nodup g.2 min_len

/-- Claim C6: for every run and word, the global word-frequency table
maps the word to the sum of that word's counts across the per-author
tables, and the word is a key of the global table iff it is a key of at
least one author table (the global table is a merge over per-author
tables). -/
theorem claim_C6 : ∀ (msgs : List Message) (min_len : Nat) (w : String),
    alGet (analyze msgs min_len).global_word_frequency w
      = (((analyze msgs min_len).authors_analysis).map
          fun a => alGet a.word_frequency w).sum
    ∧ (keyMem (analyze msgs min_len).global_word_frequency w
        ↔ ∃ a ∈ (analyze msgs min_len).authors_analysis,
            keyMem a.word_frequency w) := by
  intro msgs min_len w
  have hnod : ∀ t ∈ ((analyze msgs min_len).authors_analysis).map
      (fun a => a.word_frequency), (t.map Prod.fst).Nodup := by
    intro t ht
    rcases List.mem_map.mp ht with ⟨a, ha, hat⟩
    exact hat ▸ analyze_word_frequency_keys_nodup msgs min_len a ha
  constructor
  · rw [analyze_global, alGet_sortByKey _ _ (globalFrequency_keys_nodup _),
      alGet_globalFrequency _ _ hnod, List.map_map]
    rfl
  · rw [analyze_global, keyMem_sortByKey, keyMem_globalFrequency]
    constructor
    · rintro ⟨t, ht, hk⟩
      rcases List.mem_map.mp ht with ⟨a, ha, hat⟩
      exact ⟨a, ha, hat ▸ hk⟩
    · rintro ⟨a, ha, hk⟩
      exact ⟨a.word_frequency, List.mem_map_of_mem _ ha, hk⟩

/-! ## Stability of the ranking sort -/

/-- `orderedInsert` preserves any pairwise property `K` that holds from
the inserted element to every list element, provided a strict failure
of the sort relation forces `K` backwards. -/
theorem pairwise_orderedInsert {α : Type} {K : α → α → Prop}
    (r : α → α → Prop) [DecidableRel r]
    (hrK : ∀ x y, ¬ r x y → K y x) (a : α) :
    ∀ l : List α, l.Pairwise K → (∀ b ∈ l, K a b) →
      (List.orderedInsert r a l).Pairwise K
  | [], _, _ => List.pairwise_singleton K a
  | b :: t, hl, ha => by
    rcases List.pairwise_cons.mp hl with ⟨hb, ht⟩
    by_cases h : r a b
    · rw [List.orderedInsert, if_pos h]
      refine List.pairwise_cons.mpr ⟨?_, hl⟩
      intro x hx
      exact ha x hx
    · rw [List.orderedInsert, if_neg h]
      refine List.pairwise_cons.mpr ⟨?_, ?_⟩
      · intro x hx
        rcases (List.mem_orderedInsert r).mp hx with hxa | hxt
        · exact hxa ▸ hrK a b h
        · exact hb x hxt
      · exact pairwise_orderedInsert r hrK a t ht
          fun x hx => ha x (List.mem_cons_of_mem b hx)

/-- Insertion sort preserves any pairwise property `K` compatible with
the sort relation in the sense of `pairwise_orderedInsert`; for
`K` := "equal sort keys appear in the original order" this is the
stability of the sort. -/
theorem pairwise_insertionSort {α : Type} {K : α → α → Prop}
    (r : α → α → Prop) [DecidableRel r]
    (hrK : ∀ x y, ¬ r x y → K y x) :
    ∀ l : List α, l.Pairwise K → (l.insertionSort r).Pairwise K
  | [], _ => List.Pairwise.nil
  | a :: l, hl => by
    rcases List.pairwise_cons.mp hl with ⟨ha, hl'⟩
    rw [List.insertionSort]
    refine pairwise_orderedInsert r hrK a _
      (pairwise_insertionSort r hrK l hl') ?_
    intro b hb
    exact ha b ((List.mem_insertionSort r).mp hb)

/-- Claim C2: on a word-frequency table with strictly ascending keys
(the `BTreeMap` shape), the most-common-words ranking is sorted by
count descending with ties broken by ascending lexicographic key
order, has at most 10 entries, and is deterministic. -/
theorem claim_C2 : ∀ t : List (String × Nat), t.Pairwise keyLt →
    (rank t).Pairwise
      (fun a b => b.2 < a.2 ∨ (a.2 = b.2 ∧ a.1.toList < b.1.toList))
    ∧ (rank t).length ≤ 10
    ∧ rank t = rank t := by
  intro t ht
  have hK : t.Pairwise fun a b => a.2 = b.2 → a.1.toList < b.1.toList :=
    ht.imp fun h => fun _ => h
  have hsorted : (t.insertionSort countGe).Pairwise countGe :=
    List.sorted_insertionSort countGe t
  have hstab : (t.insertionSort countGe).Pairwise
      fun a b => a.2 = b.2 → a.1.toList < b.1.toList := by
    refine pairwise_insertionSort countGe ?_ t hK
    intro x y hxy he
    exact absurd (le_of_eq he) hxy
  have hcomb : (t.insertionSort countGe).Pairwise
      fun a b => b.2 < a.2 ∨ (a.2 = b.2 ∧ a.1.toList < b.1.toList) := by
    refine (hsorted.and hstab).imp ?_
    rintro a b ⟨h1, h2⟩
    by_cases hlt : b.2 < a.2
    · exact Or.inl hlt
    · have he : a.2 = b.2 := le_antisymm (not_lt.mp hlt) h1
      exact Or.inr ⟨he, h2 he⟩
  exact ⟨List.Pairwise.sublist (List.take_sublist 10 _) hcomb,
    List.length_take_le 10 _, rfl⟩

/-- Witness for claim C2 at a concrete three-entry table with a count
tie between the keys "aa" and "b". -/
theorem claim_C2_witness :
    (([("aa", 2), ("ab", 5), ("b", 2)] : List (String × Nat)).Pairwise keyLt)
    ∧ (rank [("aa", 2), ("ab", 5), ("b", 2)]).Pairwise
        (fun a b => b.2 < a.2 ∨ (a.2 = b.2 ∧ a.1.toList < b.1.toList))
    ∧ (rank [("aa", 2), ("ab", 5), ("b", 2)]).length ≤ 10 :=
  ⟨by decide, (claim_C2 [("aa", 2), ("ab", 5), ("b", 2)] (by decide)).1,
    (claim_C2 [("aa", 2), ("ab", 5), ("b", 2)] (by decide)).2.1⟩

/-! ## Ranking and table consistency (claim C9) -/

theorem rank_mem {t : List (String × Nat)} {p : String × Nat}
    (h : p ∈ rank t) : p ∈ t :=
  (t.perm_insertionSort countGe).mem_iff.mp
    ((List.take_sublist 10 _).mem h)

theorem rank_keys_nodup {t : List (String × Nat)}
    (hn : (t.map Prod.fst).Nodup) : ((rank t).map Prod.fst).Nodup := by
  have hperm : ((t.insertionSort countGe).map Prod.fst).Nodup :=
    (((t.perm_insertionSort countGe).map Prod.fst).nodup_iff).mpr hn
  exact List.Nodup.sublist ((List.take_sublist 10 _).map Prod.fst) hperm

theorem mkAuthorAnalysis_most_common (min_len : Nat) (author_id : String)
    (msgs : List Message) :
    (mkAuthorAnalysis min_len author_id msgs).most_common_words
      = rank (countWords msgs min_len) := rfl

/-- Claim C9: in every produced `AuthorAnalysis`, each entry of
`most_common_words` agrees with the full frequency table (the listed
count is the table's count for that word and the word is a table key),
and the listed words are pairwise distinct. -/
theorem claim_C9 : ∀ (msgs : List Message) (min_len : Nat),
    ∀ a ∈ (analyze msgs min_len).authors_analysis,
      (∀ p ∈ a.most_common_words,
          alGet a.word_frequency p.1 = p.2 ∧ keyMem a.word_frequency p.1)
      ∧ (a.most_common_words.map Prod.fst).Nodup := by
  intro msgs min_len a ha
  rw [analyze_authors] at ha
  rcases List.mem_map.mp ha with ⟨g, _, hg⟩
  subst hg
  rw [mkAuthorAnalysis_most_common, mkAuthorAnalysis_word_frequency]
  have hn := countWords_keys_nodup g.2 min_len
  constructor
  · rintro ⟨w, c⟩ hp
    have hmem : (w, c) ∈ countWords g.2 min_len := rank_mem hp
    refine ⟨alGet_of_mem hmem hn, ?_⟩
    exact List.mem_map.mpr ⟨(w, c), hmem, rfl⟩
  · exact rank_keys_nodup hn

/-- Witness for claim C9 at a one-message run. -/
theorem claim_C9_witness :
    ((analyze [wMsg] 3).authors_analysis.headD default
        ∈ (analyze [wMsg] 3).authors_analysis)
    ∧ ((∀ p ∈ ((analyze [wMsg] 3).authors_analysis.headD default).most_common_words,
          alGet ((analyze [wMsg] 3).authors_analysis.headD default).word_frequency p.1
              = p.2
            ∧ keyMem ((analyze [wMsg] 3).authors_analysis.headD default).word_frequency
                p.1)
        ∧ (((analyze [wMsg] 3).authors_analysis.headD
            default).most_common_words.map Prod.fst).Nodup) :=
  ⟨by decide, claim_C9 [wMsg] 3 _ (by decide)⟩

/-! ## Count invariants (claim C7) -/

/-- Claim C7: `total_messages` is the sum of the per-author totals,
`messages_to_deleted_users` is the sum of the per-author unique counts,
`unique_authors` is the number of author records, and every author's
total equals its unique count (deduplication precedes both counts). -/
theorem claim_C7 : ∀ (msgs : List Message) (min_len : Nat),
    (analyze msgs min_len).total_messages
      = (((analyze msgs min_len).authors_analysis).map
          fun a => a.total_messages_to_deleted_user).sum
    ∧ (analyze msgs min_len).messages_to_deleted_users
      = (((analyze msgs min_len).authors_analysis).map
          fun a => a.unique_message_count).sum
    ∧ (analyze msgs min_len).unique_authors
      = ((analyze msgs min_len).authors_analysis).length
    ∧ ∀ a ∈ (analyze msgs min_len).authors_analysis,
        a.total_messages_to_deleted_user = a.unique_message_count := by
  intro msgs min_len
  refine ⟨rfl, rfl, rfl, ?_⟩
  intro a ha
  rw [analyze_authors] at ha
  rcases List.mem_map.mp ha with ⟨g, _, hg⟩
  rw [← hg]
  rfl

/-- Witness for claim C7 at a one-message run. -/
theorem claim_C7_witness :
    ((analyze [wMsg] 3).authors_analysis.headD default
        ∈ (analyze [wMsg] 3).authors_analysis)
    ∧ ((analyze [wMsg] 3).authors_analysis.headD
          default).total_messages_to_deleted_user
      = ((analyze [wMsg] 3).authors_analysis.headD default).unique_message_count :=
  ⟨by decide, (claim_C7 [wMsg] 3).2.2.2 _ (by decide)⟩

/-! ## Non-empty groups (claim C8) -/

theorem pushMsg_nonempty {groups : List (String × List Message)}
    (h : ∀ g ∈ groups, g.2 ≠ []) (m : Message) :
    ∀ g ∈ pushMsg groups m, g.2 ≠ [] := by
  intro g hg
  unfold pushMsg at hg
  split at hg
  · rcases List.mem_map.mp hg with ⟨g', hg', hmap⟩
    by_cases hid : g'.1 = m.author_id
    · rw [if_pos hid] at hmap
      rw [← hmap]
      simp
    · rw [if_neg hid] at hmap
      exact hmap ▸ h g' hg'
  · rcases List.mem_append.mp hg with hg' | hg'
    · exact h g hg'
    · rw [List.mem_singleton] at hg'
      rw [hg']
      simp

theorem groupByAuthor_aux_nonempty (msgs : List Message) :
    ∀ init : List (String × List Message), (∀ g ∈ init, g.2 ≠ []) →
      ∀ g ∈ msgs.foldl pushMsg init, g.2 ≠ [] := by
  induction msgs with
  | nil => intro init h; exact h
  | cons m msgs ih =>
    intro init h
    rw [List.foldl_cons]
    exact ih (pushMsg init m) (pushMsg_nonempty h m)

theorem groupByAuthor_nonempty (msgs : List Message) :
    ∀ g ∈ groupByAuthor msgs, g.2 ≠ [] :=
  groupByAuthor_aux_nonempty msgs [] (by simp)

theorem dedupMessages_ne_nil {l : List Message} (h : l ≠ []) :
    dedupMessages l ≠ [] := by
  intro hd
  have hs : l.insertionSort contentLe = [] :=
    (List.destutter_eq_nil contentNe).mp hd
  have : l.length = 0 := by
    rw [← l.length_insertionSort contentLe, hs]
    rfl
  exact h (List.length_eq_zero.mp this)

/-- Claim C8: every per-author message list handed to the
frequency-counting stage (a group created by insertion, then
deduplicated keeping at least one representative) is non-empty, so the
`msgs[0]` representative access for the author name and nickname is in
bounds. -/
theorem claim_C8 : ∀ msgs : List Message,
    ∀ g ∈ (groupByAuthor (msgs.filter isRelevant)).map
        fun g => (g.1, dedupMessages g.2),
      g.2 ≠ [] := by
  intro msgs g hg
  rcases List.mem_map.mp hg with ⟨g', hg', hmap⟩
  rw [← hmap]
  exact dedupMessages_ne_nil
    (groupByAuthor_nonempty (msgs.filter isRelevant) g' hg')

/-- Witness for claim C8 at a one-message run. -/
theorem claim_C8_witness :
    (((groupByAuthor ([wMsg].filter isRelevant)).map
          fun g => (g.1, dedupMessages g.2)).headD ("", [wMsg])
        ∈ (groupByAuthor ([wMsg].filter isRelevant)).map
            fun g => (g.1, dedupMessages g.2))
    ∧ (((groupByAuthor ([wMsg].filter isRelevant)).map
          fun g => (g.1, dedupMessages g.2)).headD ("", [wMsg])).2 ≠ [] :=
  ⟨by decide, claim_C8 [wMsg] _ (by decide)⟩

/-! ## Threshold zero and the empty token (claim C10) -/

/-- Claim C10: with threshold 0 the tokenizer keeps the empty cleaned
token produced by an all-punctuation piece (its length 0 passes the
`0 ≥ 0` test), and the empty word then appears as a key of the
per-author and global word-frequency tables; the core applies the
threshold unmodified, without rejecting or clamping it. -/
theorem claim_C10 :
    tokenize_content "!!!" 0 = [""]
    ∧ keyMem (analyze [wMsgBang] 0).global_word_frequency ""
    ∧ alGet (analyze [wMsgBang] 0).global_word_frequency "" = 2
    ∧ ((analyze [wMsgBang] 0).authors_analysis.map
        fun a => alGet a.word_frequency "") = [2] :=
  ⟨by decide, by decide, by decide, by decide⟩

end DiscordAnalyzer
